import Mathlib

/-!
# Verification of the GraphQL introspection-to-Go code generator

Shallow embedding of `pkg/gql/introspect` (types.go, util.go): the schema
model, the type mapper `gqlTypeToGoType`, the node builder `NewNode`, the
node graph (`Nodes.Collect`, `Nodes.Link`, cycle marking via
`Node.markCycles` / `Node.hasCycleWith`) and the code emitter
(`ToGoTypes`, `toGoStruct`, `toGoInterface`, `toGoEnum`).

Go pointers into the graph are represented by node names: the graph keys
every node by its name, and all child pointers point at entries of the
graph's name-keyed map, so a name is a faithful stand-in for a pointer.
Go `nil`-pointer dereferences and `panic` are represented by `Option`:
`none` is a crash.  The mutable `seen` set of the cycle search is threaded
explicitly, and its recursion is driven by a fuel parameter; the fuel
sufficiency (termination) is proved as a theorem.
-/

set_option autoImplicit false

namespace Introspect

/-- Go `TypeKind` (types.go): closed enumeration of the nine GraphQL
introspection kinds, in the source's `iota` order. -/
inductive TypeKind where
  | NULL
  | NON_NULL
  | SCALAR
  | OBJECT
  | INTERFACE
  | UNION
  | ENUM
  | INPUT_OBJECT
  | LIST
  deriving DecidableEq, Repr, BEq

/-- Go `TypeKind.UnmarshalJSON` (types.go): the switch over the decoded
string literal.  The argument is the result of `strconv.Unquote` on the
raw JSON bytes (a non-string JSON token unquotes to `""`, which falls to
the default error branch, exactly as in the source where the `Unquote`
error is discarded). -/
def TypeKind.UnmarshalJSON (kindStr : String) : Except String TypeKind :=
  if kindStr = "NULL" then .ok .NULL
  else if kindStr = "NON_NULL" then .ok .NON_NULL
  else if kindStr = "SCALAR" then .ok .SCALAR
  else if kindStr = "OBJECT" then .ok .OBJECT
  else if kindStr = "INTERFACE" then .ok .INTERFACE
  else if kindStr = "UNION" then .ok .UNION
  else if kindStr = "ENUM" then .ok .ENUM
  else if kindStr = "INPUT_OBJECT" then .ok .INPUT_OBJECT
  else if kindStr = "LIST" then .ok .LIST
  else .error ("unknown type kind: " ++ kindStr)

/-- Go `TypeRef` (types.go): `{Kind, Name, OfType *TypeRef}`.  The
`OfType` pointer is `Option`; a structure cannot be recursive, hence an
inductive with projections mirroring the Go field names. -/
inductive TypeRef where
  | mk (Kind : TypeKind) (Name : String) (OfType : Option TypeRef)

def TypeRef.Kind : TypeRef → TypeKind
  | .mk k _ _ => k

def TypeRef.Name : TypeRef → String
  | .mk _ n _ => n

def TypeRef.OfType : TypeRef → Option TypeRef
  | .mk _ _ o => o

/-- Go `gqlTypeToGoType` (util.go).  `none` models a Go runtime panic: in
the `NULL` case the source dereferences `ref.OfType` without a nil check
(`return gqlTypeToGoType(*ref.OfType)`), so a `NULL` reference with no
wrapped reference crashes. -/
def gqlTypeToGoType : TypeRef → Option String
  | .mk .SCALAR name _ =>
      if name = "Int" then some "int"
      else if name = "Float" then some "float64"
      else if name = "Decimal" then some "float64"
      else if name = "String" then some "string"
      else if name = "Boolean" then some "bool"
      else if name = "ID" then some "string"
      else some "string"
  | .mk .OBJECT name _ => some name
  | .mk .NON_NULL name ofType =>
      match ofType with
      | some r => gqlTypeToGoType r
      | none => some name
  | .mk .NULL _ ofType =>
      match ofType with
      | some r => gqlTypeToGoType r
      | none => none
  | .mk .LIST _ ofType =>
      match ofType with
      | some r =>
          if r.Name ≠ "" then (gqlTypeToGoType r).map (fun s => "[]" ++ s)
          else some "[]any"
      | none => some "[]any"
  | .mk .ENUM name _ => some name
  | .mk .INPUT_OBJECT name _ => some name
  | .mk .INTERFACE name _ => some name
  | .mk .UNION _ _ => some "any"

/-- Go `InputField` (types.go).  `String` (a `*string`) is `Option String`. -/
structure InputField where
  Name : String
  Description : Option String
  Type' : TypeRef
  DefaultValue : Option String

/-- Go `Field` (types.go).  The Go field `Type` is `Type'` here (`Type` is
reserved in Lean). -/
structure Field where
  Name : String
  Description : Option String
  Args : List InputField
  Type' : TypeRef
  IsDeprecated : Bool
  DeprecationReason : Option String

/-- Go `EnumValue` (types.go). -/
structure EnumValue where
  Name : String
  Description : Option String
  IsDeprecated : Bool
  DeprecationReason : Option String

/-- Go `Type` (types.go), renamed `GqlType` (`Type` is reserved in Lean). -/
structure GqlType where
  Kind : TypeKind
  Name : String
  Description : Option String
  Fields : List Field
  InputFields : List InputField
  Interfaces : List TypeRef
  EnumValues : List EnumValue
  PossibleTypes : List TypeRef

/-- Mapping a crash-modelling (`Option`-valued) function over a list:
`none` as soon as one element crashes (a Go loop whose body may panic).
This is `List.mapM` specialised to `Option`, with plain structural
equations. -/
def mapMo {α β : Type} (F : α → Option β) : List α → Option (List β)
  | [] => some []
  | a :: l =>
      match F a with
      | none => none
      | some b => (mapMo F l).map (fun bs => b :: bs)

/-! ## The identifier exporter `capitalize` (util.go) -/

/-- Go's `toUpper` closure in `capitalize`:
`strings.ToUpper(s[:1]) + s[1:]`.  On the empty string the Go slice
expression `s[:1]` panics (index out of range), modelled as `none`. -/
def toUpperFirst (s : String) : Option String :=
  match s.toList with
  | [] => none
  | c :: cs => some (String.mk (c.toUpper :: cs))

/-- The `special` table of `capitalize` (util.go).  In Go this is a map
iterated in random order in the suffix-replacement loop; no word can end
in two distinct keys of the table (the keys pairwise disagree on their
last two characters), so the iteration order is immaterial and a
first-match list fold is equivalent. -/
def specialWords : List (String × String) :=
  [("id", "ID"), ("uri", "URI"), ("url", "URL"), ("api", "API")]

/-- The `exceptions` list of `capitalize` (util.go). -/
def exceptionWords : List String := ["valid", "invalid", "liquid"]

/-- `strings.ToLower`, by character (ASCII identifiers). -/
def lowerString (s : String) : String :=
  String.mk (s.toList.map Char.toLower)

/-- Go's `hasSuffix` closure in `capitalize`:
`strings.HasSuffix(strings.ToLower(s), suffix)`. -/
def hasSuffixLower (s suffix : String) : Bool :=
  suffix.toList.isSuffixOf (lowerString s).toList

/-- Go's `capitalizeWord` closure in `capitalize` (util.go). -/
def capitalizeWord (word : String) : String :=
  match specialWords.lookup word with
  | some val => val
  | none =>
      if exceptionWords.any (fun v => word.length ≥ v.length && hasSuffixLower word v) then
        word
      else
        match specialWords.find? (fun kv => word.length > kv.1.length && hasSuffixLower word kv.1) with
        | some kv => String.mk (word.toList.take (word.length - kv.1.length)) ++ kv.2
        | none => word

/-- `strings.Split` with a one-character separator, by structural
recursion over the characters (`String.splitOn` itself does not reduce in
the kernel). -/
def splitChar (sep : Char) : List Char → List (List Char)
  | [] => [[]]
  | c :: rest =>
      match splitChar sep rest with
      | [] => [[]]
      | w :: ws => if c = sep then [] :: w :: ws else (c :: w) :: ws

/-- Go `capitalize` (util.go): split on `_`, capitalize each word, join.
`none` models the panic of `toUpper` on an empty word (an input with a
leading, trailing or doubled underscore). -/
def capitalize (input : String) : Option String :=
  if input = "" then some input
  else
    (mapMo (fun w => toUpperFirst (capitalizeWord w))
        ((splitChar '_' input.toList).map String.mk)).map
      (fun ws => String.join ws)

/-! ## `fmt.Sprintf` with `%s` verbs -/

/-- `fmt.Sprintf` restricted to `%s` verbs, by recursion over the format's
characters: each `%s` consumes the next argument.  Every call site in the
embedded source supplies exactly as many arguments as verbs, so the
missing-argument case is never reached. -/
def sprintfChars : List Char → List String → String
  | [], _ => ""
  | '%' :: 's' :: rest, a :: args => a ++ sprintfChars rest args
  | '%' :: 's' :: rest, [] => sprintfChars rest []
  | c :: rest, args => String.mk [c] ++ sprintfChars rest args

/-- `fmt.Sprintf` on a `%s`-only format string. -/
def sprintfS (format : String) (args : List String) : String :=
  sprintfChars format.toList args

/-! ## Nodes and the node builder (util.go) -/

/-- Go `FieldMeta` (util.go).  The Go field `Type` is `Typ` here (`Type`
is reserved in Lean). -/
structure FieldMeta where
  Name : String
  Typ : String
  JSONTag : String
  hasCycle : Bool
  isNullable : Bool
  deriving DecidableEq, Repr

/-- Go `Node` (util.go).  `Children` holds the names of the child nodes:
in the source it holds pointers into the graph's name-keyed map, and a
name identifies such a pointer uniquely. -/
structure Node where
  Name : String
  Kind : TypeKind
  Fields : List FieldMeta
  Children : List String
  deriving DecidableEq, Repr

/-- One `FieldMeta` of `NewNode`'s `OBJECT`/`INTERFACE`/`UNION` loop
(util.go): `none` when `gqlTypeToGoType` panics on the field's type. -/
def fieldMetaOfField (f : Field) : Option FieldMeta :=
  (gqlTypeToGoType f.Type').map (fun ty =>
    { Name := f.Name
      Typ := ty
      JSONTag := f.Name
      hasCycle := false
      isNullable := f.Type'.Kind = .NULL || f.Type'.OfType.isNone })

/-- One `FieldMeta` of `NewNode`'s `INPUT_OBJECT` loop (util.go). -/
def fieldMetaOfInputField (f : InputField) : Option FieldMeta :=
  (gqlTypeToGoType f.Type').map (fun ty =>
    { Name := f.Name
      Typ := ty
      JSONTag := f.Name
      hasCycle := false
      isNullable := f.Type'.Kind = .NULL || f.Type'.OfType.isNone })

/-- One `FieldMeta` of `NewNode`'s `ENUM` loop (util.go): the mapped type
is the enum's own type name. -/
def fieldMetaOfEnumValue (typeName : String) (v : EnumValue) : FieldMeta :=
  { Name := v.Name
    Typ := typeName
    JSONTag := v.Name
    hasCycle := false
    isNullable := false }

/-- Go `NewNode` (util.go).  `none` models a panic of the type mapper on
some field's type reference; otherwise the node has an empty `Children`
list and per-kind fields. -/
def NewNode (schema : GqlType) : Option Node :=
  match schema.Kind with
  | .OBJECT | .INTERFACE | .UNION =>
      (mapMo fieldMetaOfField schema.Fields).map (fun fs =>
        { Name := schema.Name, Kind := schema.Kind, Fields := fs, Children := [] })
  | .INPUT_OBJECT =>
      (mapMo fieldMetaOfInputField schema.InputFields).map (fun fs =>
        { Name := schema.Name, Kind := schema.Kind, Fields := fs, Children := [] })
  | .ENUM =>
      some { Name := schema.Name, Kind := schema.Kind
             Fields := schema.EnumValues.map (fieldMetaOfEnumValue schema.Name)
             Children := [] }
  | _ =>
      some { Name := schema.Name, Kind := schema.Kind, Fields := [], Children := [] }

/-! ## The code emitter (util.go) -/

/-- The `fieldTmpl` selection of `Node.toGoStruct` (util.go), mirroring
the source's sequence of overwrites: plain template, overwritten when
`isNullable`, overwritten again when `hasCycle`. -/
def structFieldTmpl (f : FieldMeta) : String :=
  let tmpl := "\t%s %s `json:\"%s\"`\n"
  let tmpl := if f.isNullable then "\t%s *%s `json:\"%s,omitempty\"`\n" else tmpl
  let tmpl := if f.hasCycle then "\t%s *%s `json:\"%s\"`\n" else tmpl
  tmpl

/-- One field line of `Node.toGoStruct` (util.go):
`fmt.Sprintf(fieldTmpl, capitalize(f.Name), f.Type, f.JSONTag)`.
`none` models the panic of `capitalize` on a malformed name. -/
def structFieldLine (f : FieldMeta) : Option String :=
  (capitalize f.Name).map (fun cap => sprintfS (structFieldTmpl f) [cap, f.Typ, f.JSONTag])

/-- Go `Node.toGoStruct` (util.go). -/
def Node.toGoStruct (n : Node) : Option String :=
  (mapMo structFieldLine n.Fields).map (fun lines =>
    sprintfS "type %s struct \x7b\n" [n.Name] ++ String.join lines ++ "\x7d\n")

/-- One method line of `Node.toGoInterface` (util.go). -/
def interfaceFieldLine (f : FieldMeta) : Option String :=
  (capitalize f.Name).map (fun cap => sprintfS "\t%s() %s\n" [cap, f.Typ])

/-- Go `Node.toGoInterface` (util.go). -/
def Node.toGoInterface (n : Node) : Option String :=
  (mapMo interfaceFieldLine n.Fields).map (fun lines =>
    sprintfS "type %s interface \x7b\n" [n.Name] ++ String.join lines ++ "\x7d\n")

/-- One constant line of `Node.toGoEnum` (util.go). -/
def enumFieldLine (typeName : String) (f : FieldMeta) : Option String :=
  (capitalize (lowerString f.Name)).map (fun cap =>
    sprintfS "\t%s%s %s = \"%s\"\n" [typeName, cap, typeName, f.Name])

/-- Go `Node.toGoEnum` (util.go). -/
def Node.toGoEnum (n : Node) : Option String :=
  (mapMo (enumFieldLine n.Name) n.Fields).map (fun lines =>
    sprintfS "type %s string\n\n" [n.Name] ++ "const (\n" ++ String.join lines ++ ")\n")

/-- The kind dispatch of `Nodes.ToGoTypes` (util.go); the `default`
branch of the source's switch is a `panic`, modelled as `none`. -/
def renderNode (nd : Node) : Option String :=
  match nd.Kind with
  | .OBJECT | .INPUT_OBJECT | .UNION => nd.toGoStruct
  | .INTERFACE => nd.toGoInterface
  | .ENUM => nd.toGoEnum
  | _ => none

/-! ## The node graph (util.go) -/

/-- Go `Nodes` (util.go): the name-keyed map is an association list with
unique keys (a Go map cannot hold a key twice), plus the explicit
insertion order. -/
structure Nodes where
  hashMap : List (String × Node)
  sortOrder : List String
  deriving DecidableEq, Repr

/-- Go map indexing `n.hashMap[k]`. -/
def lookupNode (m : List (String × Node)) (k : String) : Option Node :=
  (m.find? (fun p => p.1 == k)).map (fun p => p.2)

/-- Go `NewNodes` (util.go). -/
def NewNodes : Nodes := { hashMap := [], sortOrder := [] }

/-- Go `Nodes.Collect` (util.go): first registration wins; a duplicate
name changes nothing. -/
def Nodes.Collect (n : Nodes) (nd : Node) : Nodes :=
  if (lookupNode n.hashMap nd.Name).isSome then n
  else { hashMap := n.hashMap ++ [(nd.Name, nd)], sortOrder := n.sortOrder ++ [nd.Name] }

/-- The child-collection loop of `Nodes.Link` (util.go) for one node:
for each field in order, skip mapped types absent from the map, append
first occurrences of present ones (`seen` dedups). -/
def linkChildren (m : List (String × Node)) : List FieldMeta → List String → List String
  | [], _ => []
  | f :: fs, seen =>
      if (lookupNode m f.Typ).isSome then
        if f.Typ ∈ seen then linkChildren m fs seen
        else f.Typ :: linkChildren m fs (f.Typ :: seen)
      else linkChildren m fs seen

/-- The first pass of `Nodes.Link` on one node: append the resolved
children.  (The source appends to the node's existing `Children` list.) -/
def linkNode (m : List (String × Node)) (nd : Node) : Node :=
  { nd with Children := nd.Children ++ linkChildren m nd.Fields [] }

/-- The first pass of `Nodes.Link` (util.go): ranges over the map; each
node's children depend only on its own fields and the map's keys, so the
(random) Go map iteration order is immaterial. -/
def linkPhase1 (n : Nodes) : Nodes :=
  { n with hashMap := n.hashMap.map (fun p => (p.1, linkNode n.hashMap p.2)) }

/-- The nodes behind a node's child pointers (`n1.Children` in Go). -/
def childNodes (m : List (String × Node)) (nd : Node) : List Node :=
  nd.Children.filterMap (lookupNode m)

/-- The `for _, c := range n1.Children` loop of `Node.hasCycleWith`:
early-returns on the first `true`, threading the mutated `seen` from one
iteration into the next.  `step` is the recursive call at one less fuel. -/
def hasCycleLoop (step : Node → List String → Option (Bool × List String)) :
    List Node → List String → Option (Bool × List String)
  | [], seen => some (false, seen)
  | c :: cs, seen =>
      match step c seen with
      | none => none
      | some (true, s) => some (true, s)
      | some (false, s) => hasCycleLoop step cs s

/-- Go `Node.hasCycleWith` (util.go), receiver `n`, argument `n1`.  The
mutable `seen` set is threaded through and returned; the recursion is
driven by explicit fuel (`none` = fuel exhausted), whose sufficiency at
`nodeFuel` is proved below.  Mirrors the source exactly: the membership
test is on the receiver's name, the kind test on the argument, and the
loop recurses with the argument as receiver. -/
def hasCycleWithF (m : List (String × Node)) :
    Nat → Node → Node → List String → Option (Bool × List String)
  | 0, _, _, _ => none
  | fuel + 1, n, n1, seen =>
      if n.Name ∈ seen then some (true, seen)
      else if n1.Kind ≠ TypeKind.OBJECT ∧ n1.Kind ≠ TypeKind.INPUT_OBJECT then some (false, seen)
      else hasCycleLoop (fun c s => hasCycleWithF m fuel n1 c s) (childNodes m n1) (n.Name :: seen)

/-- Fuel sufficient for `hasCycleWithF` on graph `m` (one unit per
distinct node name, plus one). -/
def nodeFuel (m : List (String × Node)) : Nat := m.length + 1

/-- Go `Node.hasCycleWith` at sufficient fuel.  The `false` default is
dead code: `hasCycleWithF_total` below shows the fuel never runs out on
a well-formed graph. -/
def hasCycleWith (m : List (String × Node)) (n n1 : Node) (seen : List String) : Bool :=
  match hasCycleWithF m (nodeFuel m) n n1 seen with
  | some (b, _) => b
  | none => false

/-- Go `Node.markCycles` (util.go): for each child `c` (a fresh `seen`
per child), when `n.hasCycleWith(c, seen)` holds, flag every field whose
mapped type equals `c`'s name. -/
def Node.markCycles (m : List (String × Node)) (n : Node) : Node :=
  { n with Fields := n.Fields.map (fun f =>
      if n.Children.any (fun cName =>
          match lookupNode m cName with
          | some c => f.Typ == c.Name && hasCycleWith m n c []
          | none => false) then
        { f with hasCycle := true }
      else f) }

/-- Go map update through the node pointer `n.hashMap[k]`. -/
def replaceEntry (m : List (String × Node)) (k : String) (nd : Node) :
    List (String × Node) :=
  m.map (fun p => if p.1 == k then (p.1, nd) else p)

/-- The `for _, o := range n.sortOrder` marking loop of `Nodes.Link`
(util.go): look the node up, mark it, store it back.  `none` models the
nil-map-entry crash when a `sortOrder` name is missing from the map
(impossible for graphs built by `Collect`).  The marking of a node reads
only the `Name`, `Kind` and `Children` of other nodes — never their
flags — and this pass changes nothing but flags, so each marking step
may read the phase-1 graph `g1m`. -/
def markPass (g1m : List (String × Node)) :
    List String → List (String × Node) → Option (List (String × Node))
  | [], m => some m
  | o :: os, m =>
      match lookupNode m o with
      | none => none
      | some nd => markPass g1m os (replaceEntry m o (Node.markCycles g1m nd))

/-- Go `Nodes.Link` (util.go): first pass builds the child links of
every node, second pass marks cycles over `sortOrder`. -/
def Nodes.Link (n : Nodes) : Option Nodes :=
  let g1 := linkPhase1 n
  (markPass g1.hashMap n.sortOrder g1.hashMap).map
    (fun m => { hashMap := m, sortOrder := n.sortOrder })

/-- Go `Nodes.ToGoTypes` (util.go), before the final `strings.Join`: the
rendering of each node, following `sortOrder`.  `none` models the panic
on an unsupported node kind (or a dangling `sortOrder` name). -/
def toGoTypesList (n : Nodes) : Option (List String) :=
  mapMo (fun name => (lookupNode n.hashMap name).bind renderNode) n.sortOrder

/-- Go `Nodes.ToGoTypes` (util.go). -/
def Nodes.ToGoTypes (n : Nodes) : Option String :=
  (toGoTypesList n).map (fun out => String.intercalate "\n" out)

/-! ## Well-formedness of the graph representation

A Go map cannot hold a key twice, and every node is stored under its own
name; both facts are structural in Go and become explicit predicates on
the association-list representation. -/

/-- The name-keyed map holds no key twice and keys each node by its own
name (true of every map built by `Collect`). -/
def MapWF (m : List (String × Node)) : Prop :=
  (m.map Prod.fst).Nodup ∧ ∀ p ∈ m, p.2.Name = p.1

instance (m : List (String × Node)) : Decidable (MapWF m) := by
  unfold MapWF; infer_instance

/-- A well-formed graph: well-formed map, and `sortOrder` lists exactly
the map's keys in insertion order (true of every graph built by
`Collect`). -/
def NodesWF (n : Nodes) : Prop :=
  MapWF n.hashMap ∧ n.sortOrder = n.hashMap.map Prod.fst

instance (n : Nodes) : Decidable (NodesWF n) := by
  unfold NodesWF; infer_instance

/-! ## Derived builders used by the claims -/

/-- A sequence of `Collect` calls starting from `NewNodes`. -/
def collectAll (nds : List Node) : Nodes :=
  nds.foldl Nodes.Collect NewNodes

/-- The caller-side build loop (node_test.go, ToGoTypes test):
`nodes.Collect(NewNode(t))` for each declared type; `none` when some
`NewNode` call panics. -/
def collectSchemasFrom (g : Nodes) : List GqlType → Option Nodes
  | [] => some g
  | t :: ts =>
      match NewNode t with
      | none => none
      | some nd => collectSchemasFrom (g.Collect nd) ts

/-- `collectSchemasFrom` starting from the empty graph. -/
def collectSchemas (ts : List GqlType) : Option Nodes :=
  collectSchemasFrom NewNodes ts

/-- The first-seen sublist of a node list: keeps the first node of each
name, in order, dropping later duplicates — the collection order that
`Collect` realizes. -/
def firstSeenNodes (seen : List String) : List Node → List Node
  | [] => []
  | nd :: rest =>
      if nd.Name ∈ seen then firstSeenNodes seen rest
      else nd :: firstSeenNodes (nd.Name :: seen) rest

/-! ## The specified cycle condition -/

/-- Modelled from the spec (§4.3 cycle detection), for comparison with
the source's `hasCycleWith`: "determine whether there exists a path from
`C` back to `N` through the subgraph restricted to `OBJECT`/
`INPUT_OBJECT` kind nodes" — plain directed reachability from `cur` to
`target` along child edges, expanding only `OBJECT`/`INPUT_OBJECT`
nodes, with a proper visited set. -/
def specPathBack (m : List (String × Node)) : Nat → String → String → List String → Bool
  | 0, _, _, _ => false
  | fuel + 1, cur, target, visited =>
      if cur = target then true
      else if cur ∈ visited then false
      else
        match lookupNode m cur with
        | none => false
        | some c =>
            if c.Kind = TypeKind.OBJECT ∨ c.Kind = TypeKind.INPUT_OBJECT then
              c.Children.any (fun next => specPathBack m fuel next target (cur :: visited))
            else false

/-! ## Concrete graphs used by individual claims -/

/-- A node with `OBJECT` kind and the given `(name, mappedType, jsonTag)`
fields, as the repository's own `TestNodes_Link` constructs them. -/
def mkObjNode (name : String) (fs : List (String × String × String)) : Node :=
  { Name := name, Kind := .OBJECT
    Fields := fs.map (fun t =>
      { Name := t.1, Typ := t.2.1, JSONTag := t.2.2, hasCycle := false, isNullable := false })
    Children := [] }

/-- An acyclic diamond: `Root → C`, `C → A`, `C → B`, no other edge. -/
def diamondGraph : Nodes :=
  collectAll
    [ mkObjNode "Root" [("c", "C", "c")]
    , mkObjNode "C" [("a", "A", "a"), ("b", "B", "b")]
    , mkObjNode "A" []
    , mkObjNode "B" [] ]

/-- A single node whose only field references the node itself. -/
def selfLoopGraph : Nodes :=
  collectAll [mkObjNode "A" [("a", "A", "a")]]

/-- A one-value `ENUM` schema type, as in the repository's enum test. -/
def enumExampleType : GqlType :=
  { Kind := .ENUM, Name := "Country", Description := none
    Fields := [], InputFields := [], Interfaces := []
    EnumValues := [{ Name := "DE", Description := none
                     IsDeprecated := false, DeprecationReason := none }]
    PossibleTypes := [] }

/-- The node `NewNode` builds from `enumExampleType`. -/
def enumExampleNode : Node :=
  { Name := "Country", Kind := .ENUM
    Fields := [{ Name := "DE", Typ := "Country", JSONTag := "DE"
                 hasCycle := false, isNullable := false }]
    Children := [] }

/-- The graph holding just `enumExampleNode`. -/
def enumExampleGraph : Nodes :=
  { hashMap := [("Country", enumExampleNode)], sortOrder := ["Country"] }

/-- `enumExampleGraph` after `Link`: the enum node now lists itself as
its only (deduplicated) child. -/
def enumExampleLinked : Nodes :=
  { hashMap := [("Country", { enumExampleNode with Children := ["Country"] })]
    sortOrder := ["Country"] }

/-- The nine kind literals of the `TypeKind.UnmarshalJSON` switch. -/
def knownKindLiterals : List String :=
  ["NULL", "NON_NULL", "SCALAR", "OBJECT", "INTERFACE", "UNION", "ENUM", "INPUT_OBJECT", "LIST"]

/-! # Theorems -/

/-- **C1** (claimed: after `Link`, a field of `N` typed at child `C` is
flagged `hasCycle` **iff** a path leads from `C` back to `N` through
`OBJECT`/`INPUT_OBJECT` nodes).  The code violates the only-if
direction: in the acyclic diamond `Root → C`, `C → A`, `C → B`, the
field `Root.c` is flagged even though nothing points back to `Root` —
the `seen` set of `hasCycleWith` persists across sibling subtrees, so
the second child `B` of `C` finds `C` already seen and reports a cycle.
The second conjunct checks the specified condition (spec-modelled
back-reachability) is false on the same linked graph. -/
theorem markCycles_flags_acyclic_diamond :
    (diamondGraph.Link.bind (fun g =>
        (lookupNode g.hashMap "Root").map (fun nd => nd.Fields.map (fun f => f.hasCycle))))
      = some [true] ∧
    specPathBack (linkPhase1 diamondGraph).hashMap (nodeFuel diamondGraph.hashMap)
      "C" "Root" [] = false := by
  decide

/-- **C2** (claimed: the type mapper is total — in particular a
`NULL`-kind reference with no wrapped reference yields a string and
never fails).  The code's `NULL` case dereferences `ref.OfType` without
a nil check, so this very input crashes: the mapper evaluates to `none`
(a nil-pointer panic in Go). -/
theorem gqlTypeToGoType_null_unwrapped_crashes :
    gqlTypeToGoType (.mk .NULL "String" none) = none := by
  decide

/-- **C3**, counterexample (claimed: `NON_NULL` with absent wrapped
reference maps to the "any" representation).  On
`NON_NULL{Name := "Foo", OfType := nil}` the code returns the
reference's own name `"Foo"`, not `"any"`. -/
theorem gqlTypeToGoType_nonnull_unwrapped_counterexample :
    gqlTypeToGoType (.mk .NON_NULL "Foo" none) = some "Foo" ∧
    gqlTypeToGoType (.mk .NON_NULL "Foo" none) ≠ some "any" := by
  decide

/-- **C3**, amended: a `LIST` reference with no wrapped reference maps
to `"[]any"`, and a `NON_NULL` reference with no wrapped reference
falls back to the reference's own name; neither is ever an error
(crash). -/
theorem gqlTypeToGoType_unwrapped_modifiers (name : String) :
    gqlTypeToGoType (.mk .LIST name none) = some "[]any" ∧
    gqlTypeToGoType (.mk .NON_NULL name none) = some name := by
  exact ⟨rfl, rfl⟩

/-- **C7**: `NON_NULL` and `NULL` wrappers are transparent to the type
mapper — wrapping any inner reference changes nothing (this includes
the crashing cases, which agree as `none`). -/
theorem gqlTypeToGoType_transparent (name : String) (r : TypeRef) :
    gqlTypeToGoType (.mk .NON_NULL name (some r)) = gqlTypeToGoType r ∧
    gqlTypeToGoType (.mk .NULL name (some r)) = gqlTypeToGoType r := by
  exact ⟨rfl, rfl⟩

/-- **C9**: decoding a `TypeKind` succeeds exactly on the nine known
kind literals, and every other literal yields the descriptive decode
error naming the rejected input — the sole error path of the schema
model (every other declaration of types.go is passive data). -/
theorem typeKind_decode_exact :
    (∀ s : String, (∃ k, TypeKind.UnmarshalJSON s = .ok k) ↔ s ∈ knownKindLiterals) ∧
    (∀ s : String, s ∉ knownKindLiterals →
      TypeKind.UnmarshalJSON s = .error ("unknown type kind: " ++ s)) := by
  constructor
  · intro s
    constructor
    · rintro ⟨k, hk⟩
      unfold TypeKind.UnmarshalJSON at hk
      split_ifs at hk <;> simp_all [knownKindLiterals]
    · intro hs
      simp [knownKindLiterals] at hs
      rcases hs with rfl | rfl | rfl | rfl | rfl | rfl | rfl | rfl | rfl
      · exact ⟨.NULL, rfl⟩
      · exact ⟨.NON_NULL, rfl⟩
      · exact ⟨.SCALAR, rfl⟩
      · exact ⟨.OBJECT, rfl⟩
      · exact ⟨.INTERFACE, rfl⟩
      · exact ⟨.UNION, rfl⟩
      · exact ⟨.ENUM, rfl⟩
      · exact ⟨.INPUT_OBJECT, rfl⟩
      · exact ⟨.LIST, rfl⟩
  · intro s hs
    simp [knownKindLiterals] at hs
    unfold TypeKind.UnmarshalJSON
    split_ifs <;> simp_all

/-- Witness for **C9**: an unknown literal is rejected with the
descriptive error. -/
theorem typeKind_decode_exact_witness :
    ("Foo" ∉ knownKindLiterals) ∧
    TypeKind.UnmarshalJSON "Foo" = .error ("unknown type kind: Foo") := by
  refine ⟨by decide, ?_⟩
  have h := typeKind_decode_exact.2 "Foo" (by decide)
  simpa using h

/-- Elements produced by a successful `mapMo` pass satisfy anything the
element function guarantees. -/
theorem mapMo_mem {α β : Type} (F : α → Option β) (P : β → Prop)
    (hF : ∀ a b, F a = some b → P b) :
    ∀ (l : List α) (res : List β), mapMo F l = some res → ∀ b ∈ res, P b := by
  intro l
  induction l with
  | nil =>
      intro res h b hb
      simp [mapMo] at h
      subst h
      simp at hb
  | cons a t ih =>
      intro res h b hb
      unfold mapMo at h
      cases hFa : F a with
      | none => rw [hFa] at h; exact absurd h (by simp)
      | some b0 =>
          rw [hFa] at h
          cases hRest : mapMo F t with
          | none => rw [hRest] at h; exact absurd h (by simp)
          | some bs =>
              rw [hRest] at h
              simp at h
              subst h
              rcases List.mem_cons.mp hb with rfl | hmem
              · exact hF a b hFa
              · exact ih bs hRest b hmem

/-- **C6**: struct emission renders each field by precedence — a cycle
flag yields a pointer representation with the plain tag, else
nullability yields a pointer representation with an `omitempty` tag,
else the direct value representation; in all three shapes the
serialization tag is the field's `JSONTag`, and the node builder always
sets `JSONTag` to the field's original name. -/
theorem struct_field_representation :
    (∀ (f : FieldMeta) (cap : String), capitalize f.Name = some cap →
      structFieldLine f = some (
        if f.hasCycle then
          "\t" ++ cap ++ " *" ++ f.Typ ++ " `json:\"" ++ f.JSONTag ++ "\"`\n"
        else if f.isNullable then
          "\t" ++ cap ++ " *" ++ f.Typ ++ " `json:\"" ++ f.JSONTag ++ ",omitempty\"`\n"
        else
          "\t" ++ cap ++ " " ++ f.Typ ++ " `json:\"" ++ f.JSONTag ++ "\"`\n")) ∧
    (∀ (t : GqlType) (nd : Node), NewNode t = some nd →
      ∀ fm ∈ nd.Fields, fm.JSONTag = fm.Name) := by
  constructor
  · intro f cap hcap
    cases hc : f.hasCycle <;> cases hn : f.isNullable <;>
      · simp only [structFieldLine, hcap, structFieldTmpl, hc, hn, Option.map_some',
          if_true, if_false, Bool.false_eq_true, Option.some.injEq]
        apply String.ext
        simp [sprintfS, sprintfChars, String.toList, String.data_append]
  · intro t nd hnd fm hfm
    obtain ⟨k, nm, ds, fs, ifs, itf, evs, pts⟩ := t
    have hJSON : ∀ (a : Field) (b : FieldMeta),
        fieldMetaOfField a = some b → b.JSONTag = b.Name := by
      intro a b hab
      unfold fieldMetaOfField at hab
      cases h : gqlTypeToGoType a.Type' <;> rw [h] at hab <;> simp at hab
      subst hab; rfl
    have hJSONin : ∀ (a : InputField) (b : FieldMeta),
        fieldMetaOfInputField a = some b → b.JSONTag = b.Name := by
      intro a b hab
      unfold fieldMetaOfInputField at hab
      cases h : gqlTypeToGoType a.Type' <;> rw [h] at hab <;> simp at hab
      subst hab; rfl
    cases k <;> simp only [NewNode] at hnd
    case OBJECT | INTERFACE | UNION =>
      cases hmm : mapMo fieldMetaOfField fs with
      | none => rw [hmm] at hnd; exact absurd hnd (by simp)
      | some ms =>
          rw [hmm] at hnd
          simp at hnd
          have hF : nd.Fields = ms := by rw [← hnd]
          exact mapMo_mem _ _ hJSON fs ms hmm fm (hF ▸ hfm)
    case INPUT_OBJECT =>
      cases hmm : mapMo fieldMetaOfInputField ifs with
      | none => rw [hmm] at hnd; exact absurd hnd (by simp)
      | some ms =>
          rw [hmm] at hnd
          simp at hnd
          have hF : nd.Fields = ms := by rw [← hnd]
          exact mapMo_mem _ _ hJSONin ifs ms hmm fm (hF ▸ hfm)
    case ENUM =>
      simp at hnd
      have hF : nd.Fields = evs.map (fieldMetaOfEnumValue nm) := by rw [← hnd]
      rw [hF] at hfm
      simp [List.mem_map] at hfm
      rcases hfm with ⟨v, hv, rfl⟩
      rfl
    case NULL | NON_NULL | SCALAR | LIST =>
      simp at hnd
      have hF : nd.Fields = [] := by rw [← hnd]
      rw [hF] at hfm
      simp at hfm

/-- Witness for **C6**: a plain field renders as a direct value with its
name as tag. -/
theorem struct_field_representation_witness :
    capitalize "id" = some "ID" ∧
    structFieldLine
        { Name := "id", Typ := "string", JSONTag := "id", hasCycle := false, isNullable := false }
      = some "\tID string `json:\"id\"`\n" :=
  ⟨by decide,
    (struct_field_representation.1
        { Name := "id", Typ := "string", JSONTag := "id", hasCycle := false, isNullable := false }
        "ID" (by decide)).trans (by decide)⟩

theorem lookupNode_isSome_iff (m : List (String × Node)) (k : String) :
    (lookupNode m k).isSome = true ↔ k ∈ m.map Prod.fst := by
  unfold lookupNode
  rw [show (Option.map (fun p => p.2) (List.find? (fun p => p.1 == k) m)).isSome
      = (List.find? (fun p => p.1 == k) m).isSome from by
    cases List.find? (fun p => p.1 == k) m <;> rfl]
  rw [List.find?_isSome]
  simp [List.mem_map, beq_iff_eq]

theorem firstSeenNodes_congr :
    ∀ (l : List Node) (s1 s2 : List String), (∀ a, a ∈ s1 ↔ a ∈ s2) →
      firstSeenNodes s1 l = firstSeenNodes s2 l := by
  intro l
  induction l with
  | nil => intro s1 s2 h; rfl
  | cons nd rest ih =>
      intro s1 s2 h
      unfold firstSeenNodes
      by_cases hm : nd.Name ∈ s1
      · rw [if_pos hm, if_pos ((h nd.Name).mp hm)]
        exact ih s1 s2 h
      · rw [if_neg hm, if_neg (fun hc => hm ((h nd.Name).mpr hc))]
        congr 1
        apply ih
        intro a
        simp only [List.mem_cons]
        exact or_congr Iff.rfl (h a)

theorem collectAll_inv :
    ∀ (nds : List Node) (g : Nodes),
      (nds.foldl Nodes.Collect g).hashMap
        = g.hashMap ++ (firstSeenNodes (g.hashMap.map Prod.fst) nds).map (fun nd => (nd.Name, nd)) ∧
      (nds.foldl Nodes.Collect g).sortOrder
        = g.sortOrder ++ (firstSeenNodes (g.hashMap.map Prod.fst) nds).map Node.Name := by
  intro nds
  induction nds with
  | nil => intro g; simp [firstSeenNodes]
  | cons nd rest ih =>
      intro g
      rw [List.foldl_cons]
      unfold firstSeenNodes
      by_cases hm : (lookupNode g.hashMap nd.Name).isSome = true
      · have hmem : nd.Name ∈ g.hashMap.map Prod.fst := (lookupNode_isSome_iff _ _).mp hm
        have hcol : g.Collect nd = g := by unfold Nodes.Collect; rw [if_pos hm]
        rw [hcol, if_pos hmem]
        exact ih g
      · have hmem : nd.Name ∉ g.hashMap.map Prod.fst :=
          fun hc => hm ((lookupNode_isSome_iff _ _).mpr hc)
        have hcol : g.Collect nd
            = { hashMap := g.hashMap ++ [(nd.Name, nd)], sortOrder := g.sortOrder ++ [nd.Name] } := by
          unfold Nodes.Collect
          rw [if_neg (fun hc => hm hc)]
        rw [hcol, if_neg hmem]
        have ihg := ih { hashMap := g.hashMap ++ [(nd.Name, nd)], sortOrder := g.sortOrder ++ [nd.Name] }
        have hkeys : (g.hashMap ++ [(nd.Name, nd)]).map Prod.fst
            = g.hashMap.map Prod.fst ++ [nd.Name] := by simp
        have hcongr : firstSeenNodes (g.hashMap.map Prod.fst ++ [nd.Name]) rest
            = firstSeenNodes (nd.Name :: g.hashMap.map Prod.fst) rest := by
          apply firstSeenNodes_congr
          intro a
          simp [List.mem_append, List.mem_cons, or_comm]
        constructor
        · rw [ihg.1, hkeys, hcongr]
          simp
        · rw [ihg.2, hkeys, hcongr]
          simp

theorem firstSeenNodes_fresh :
    ∀ (l : List Node) (seen : List String),
      ((firstSeenNodes seen l).map Node.Name).Nodup ∧
      ∀ nd ∈ firstSeenNodes seen l, nd.Name ∉ seen := by
  intro l
  induction l with
  | nil => intro seen; simp [firstSeenNodes]
  | cons nd rest ih =>
      intro seen
      unfold firstSeenNodes
      by_cases hm : nd.Name ∈ seen
      · rw [if_pos hm]; exact ih seen
      · rw [if_neg hm]
        have ihx := ih (nd.Name :: seen)
        constructor
        · simp only [List.map_cons, List.nodup_cons]
          constructor
          · intro hc
            rcases List.mem_map.mp hc with ⟨nd', hnd', heq⟩
            exact (ihx.2 nd' hnd') (heq ▸ List.mem_cons_self _ _)
          · exact ihx.1
        · intro nd' hnd'
          rcases List.mem_cons.mp hnd' with rfl | hmem
          · exact hm
          · exact fun hc => (ihx.2 nd' hmem) (List.mem_cons_of_mem _ hc)

theorem lookup_assoc_self :
    ∀ (dl : List Node), ((dl.map Node.Name).Nodup) →
      ∀ nd ∈ dl, lookupNode (dl.map (fun nd => (nd.Name, nd))) nd.Name = some nd := by
  intro dl
  induction dl with
  | nil => intro _ nd h; simp at h
  | cons a rest ih =>
      intro hnd nd hmem
      simp only [List.map_cons, List.nodup_cons] at hnd
      rcases List.mem_cons.mp hmem with rfl | hmem'
      · unfold lookupNode
        simp [List.find?_cons]
      · have hne : a.Name ≠ nd.Name := by
          intro hc
          exact hnd.1 (hc ▸ List.mem_map_of_mem Node.Name hmem')
        unfold lookupNode
        rw [List.map_cons, List.find?_cons]
        have : ((a.Name, a).1 == nd.Name) = false := by
          simp [hne]
        rw [this]
        exact ih hnd.2 nd hmem'

theorem mapMo_lookup_render (full : List (String × Node)) :
    ∀ (dl : List Node), (∀ nd ∈ dl, lookupNode full nd.Name = some nd) →
      mapMo (fun name => (lookupNode full name).bind renderNode) (dl.map Node.Name)
        = mapMo renderNode dl := by
  intro dl
  induction dl with
  | nil => intro _; rfl
  | cons a rest ih =>
      intro h
      rw [List.map_cons]
      unfold mapMo
      rw [h a (List.mem_cons_self _ _)]
      simp only [Option.some_bind]
      cases renderNode a with
      | none => rfl
      | some s => rw [ih (fun nd hnd => h nd (List.mem_cons_of_mem _ hnd))]

/-- **C5**: the emission of `ToGoTypes` follows first-`Collect` order —
for any sequence of `Collect` calls, the emitted declarations are the
renderings of exactly the first-seen nodes, in first-seen order (never
the storage map's own iteration order, which the emitter does not
consult); and collecting a node whose name is already registered is a
no-op, leaving the first-registered node and its position unchanged. -/
theorem collect_emission_order :
    (∀ nds : List Node,
      toGoTypesList (collectAll nds) = mapMo renderNode (firstSeenNodes [] nds)) ∧
    (∀ (ns : Nodes) (nd : Node),
      (lookupNode ns.hashMap nd.Name).isSome = true → ns.Collect nd = ns) := by
  constructor
  · intro nds
    have hinv := collectAll_inv nds NewNodes
    simp only [show NewNodes.hashMap = [] from rfl, show NewNodes.sortOrder = [] from rfl,
      List.map_nil, List.nil_append] at hinv
    unfold collectAll toGoTypesList
    rw [hinv.1, hinv.2]
    have hfresh := firstSeenNodes_fresh nds []
    apply mapMo_lookup_render
    intro nd hnd
    exact lookup_assoc_self _ hfresh.1 nd hnd
  · intro ns nd h
    unfold Nodes.Collect
    rw [if_pos h]

/-- Witness for **C5**: collecting a second node named `"A"` into a
graph already holding one is a no-op. -/
theorem collect_emission_order_witness :
    (lookupNode selfLoopGraph.hashMap (mkObjNode "A" []).Name).isSome = true ∧
    selfLoopGraph.Collect (mkObjNode "A" []) = selfLoopGraph :=
  ⟨by decide, collect_emission_order.2 selfLoopGraph (mkObjNode "A" []) (by decide)⟩

theorem lookup_mem (m : List (String × Node)) (k : String) (nd : Node)
    (h : lookupNode m k = some nd) : (k, nd) ∈ m := by
  unfold lookupNode at h
  cases hf : m.find? (fun p => p.1 == k) with
  | none => rw [hf] at h; simp at h
  | some p =>
      rw [hf] at h
      simp at h
      have hmem := List.mem_of_find?_eq_some hf
      have hkey := List.find?_some hf
      simp at hkey
      have hpk : p = (k, nd) := by
        rcases p with ⟨a, b⟩
        simp at hkey h
        exact Prod.ext hkey h
      exact hpk ▸ hmem

theorem lookup_eq_of_mem_nodup (m : List (String × Node))
    (hnd : (m.map Prod.fst).Nodup) (p : String × Node) (hp : p ∈ m) :
    lookupNode m p.1 = some p.2 := by
  induction m with
  | nil => simp at hp
  | cons q rest ih =>
      simp only [List.map_cons, List.nodup_cons] at hnd
      rcases List.mem_cons.mp hp with rfl | hmem
      · unfold lookupNode
        simp [List.find?_cons]
      · have hne : q.1 ≠ p.1 := by
          intro hc
          exact hnd.1 (hc ▸ List.mem_map_of_mem Prod.fst hmem)
        unfold lookupNode
        rw [List.find?_cons]
        have hb : (q.1 == p.1) = false := by simp [hne]
        rw [hb]
        exact ih hnd.2 hmem

theorem replaceEntry_keys (m : List (String × Node)) (k : String) (nd : Node) :
    (replaceEntry m k nd).map Prod.fst = m.map Prod.fst := by
  unfold replaceEntry
  rw [List.map_map]
  apply List.map_congr_left
  intro p hp
  show (if p.1 == k then (p.1, nd) else p).1 = p.1
  split <;> rfl

theorem markPass_eq (g1m : List (String × Node)) :
    ∀ (l : List String) (m : List (String × Node)),
      l.Nodup → (m.map Prod.fst).Nodup → (∀ o ∈ l, o ∈ m.map Prod.fst) →
      markPass g1m l m
        = some (m.map (fun p =>
            if p.1 ∈ l then (p.1, Node.markCycles g1m p.2) else p)) := by
  intro l
  induction l with
  | nil =>
      intro m _ _ _
      simp [markPass]
  | cons o os ih =>
      intro m hlnd hmnd hsub
      simp only [List.nodup_cons] at hlnd
      have hoin : o ∈ m.map Prod.fst := hsub o (List.mem_cons_self _ _)
      have hsome : (lookupNode m o).isSome = true := (lookupNode_isSome_iff m o).mpr hoin
      cases hlk : lookupNode m o with
      | none => rw [hlk] at hsome; simp at hsome
      | some nd =>
          have hstep : markPass g1m (o :: os) m
              = markPass g1m os (replaceEntry m o (Node.markCycles g1m nd)) := by
            show (match lookupNode m o with
              | none => none
              | some nd => markPass g1m os (replaceEntry m o (Node.markCycles g1m nd))) = _
            rw [hlk]
          rw [hstep]
          have hkeys := replaceEntry_keys m o (Node.markCycles g1m nd)
          rw [ih (replaceEntry m o (Node.markCycles g1m nd)) hlnd.2 (hkeys ▸ hmnd)
            (fun o' ho' => hkeys ▸ hsub o' (List.mem_cons_of_mem _ ho'))]
          congr 1
          unfold replaceEntry
          rw [List.map_map]
          apply List.map_congr_left
          intro p hp
          by_cases hpo : p.1 = o
          · have hpnd : p.2 = nd := by
              have hlp := lookup_eq_of_mem_nodup m hmnd p hp
              rw [hpo, hlk] at hlp
              exact (Option.some.injEq _ _ ▸ hlp).symm
            simp [Function.comp, hpo, hpnd, hlnd.1]
          · simp [Function.comp, hpo, List.mem_cons]

theorem lookup_map_value (m : List (String × Node)) (F : String → Node → Node) (k : String) :
    lookupNode (m.map (fun p => (p.1, F p.1 p.2))) k
      = (lookupNode m k).map (fun nd => F k nd) := by
  induction m with
  | nil => rfl
  | cons q rest ih =>
      unfold lookupNode
      rw [List.map_cons, List.find?_cons, List.find?_cons]
      by_cases h : (q.1 == k) = true
      · have hk : q.1 = k := by simpa using h
        simp only [h]
        simp [hk]
      · have hb : (q.1 == k) = false := by simpa using h
        simp only [hb]
        exact ih

theorem Link_eq (n : Nodes) (h : NodesWF n) :
    n.Link = some
      { hashMap := n.hashMap.map (fun p =>
          (p.1, Node.markCycles (linkPhase1 n).hashMap (linkNode n.hashMap p.2)))
        sortOrder := n.sortOrder } := by
  obtain ⟨⟨hnd, hnames⟩, hsort⟩ := h
  have hg1keys : (linkPhase1 n).hashMap.map Prod.fst = n.hashMap.map Prod.fst := by
    unfold linkPhase1
    rw [List.map_map]
    apply List.map_congr_left
    intro p hp
    rfl
  unfold Nodes.Link
  show (markPass (linkPhase1 n).hashMap n.sortOrder (linkPhase1 n).hashMap).map
      (fun m => ({ hashMap := m, sortOrder := n.sortOrder } : Nodes)) = _
  rw [markPass_eq (linkPhase1 n).hashMap n.sortOrder (linkPhase1 n).hashMap
      (by rw [hsort]; exact hnd) (by rw [hg1keys]; exact hnd)
      (fun o ho => by rw [hg1keys]; exact hsort ▸ ho)]
  simp only [Option.map_some']
  congr 1
  have hall : ∀ p ∈ (linkPhase1 n).hashMap, p.1 ∈ n.sortOrder := by
    intro p hp
    rw [hsort, ← hg1keys]
    exact List.mem_map_of_mem Prod.fst hp
  congr 1
  rw [List.map_congr_left (fun p hp => if_pos (hall p hp))]
  unfold linkPhase1
  rw [List.map_map]
  apply List.map_congr_left
  intro p hp
  rfl



/-- **C4**, counterexample (claimed: the `hasCycle` flags are the
*only* post-construction mutation `Link` applies to nodes).  `Link`
also populates `Children`: on a one-node graph whose node references
itself, the node's `Children` list changes from `[]` to `["A"]`. -/
theorem link_appends_children_counterexample :
    (selfLoopGraph.Link.bind (fun g => (lookupNode g.hashMap "A").map Node.Children))
      = some ["A"] ∧
    (lookupNode selfLoopGraph.hashMap "A").map Node.Children = some [] := by
  decide

/-- **C4**, amended: on every well-formed graph (as `Collect` builds
them), `Link` succeeds, removes and adds no node, keeps the order, and
its only mutations are appending resolved child links and raising
`hasCycle` flags — each node's name, kind, field names, mapped types,
tags and nullability are unchanged. -/
theorem link_frame (ns : Nodes) (hwf : NodesWF ns) :
    ∃ g', ns.Link = some g' ∧
      g'.sortOrder = ns.sortOrder ∧
      g'.hashMap.map Prod.fst = ns.hashMap.map Prod.fst ∧
      ∀ k nd, lookupNode ns.hashMap k = some nd →
        ∃ nd', lookupNode g'.hashMap k = some nd' ∧
          nd'.Name = nd.Name ∧ nd'.Kind = nd.Kind ∧
          nd'.Fields.map FieldMeta.Name = nd.Fields.map FieldMeta.Name ∧
          nd'.Fields.map FieldMeta.Typ = nd.Fields.map FieldMeta.Typ ∧
          nd'.Fields.map FieldMeta.JSONTag = nd.Fields.map FieldMeta.JSONTag ∧
          nd'.Fields.map FieldMeta.isNullable = nd.Fields.map FieldMeta.isNullable ∧
          ∃ ext, nd'.Children = nd.Children ++ ext := by
  refine ⟨_, Link_eq ns hwf, rfl, ?_, ?_⟩
  · show (ns.hashMap.map (fun p =>
        (p.1, Node.markCycles (linkPhase1 ns).hashMap (linkNode ns.hashMap p.2)))).map Prod.fst
      = ns.hashMap.map Prod.fst
    rw [List.map_map]
    apply List.map_congr_left
    intro p hp
    rfl
  · intro k nd hlk
    have hlv := lookup_map_value ns.hashMap
      (fun _ nd => Node.markCycles (linkPhase1 ns).hashMap (linkNode ns.hashMap nd)) k
    rw [hlk] at hlv
    simp only [Option.map_some'] at hlv
    refine ⟨_, hlv, rfl, rfl, ?_, ?_, ?_, ?_, ⟨_, rfl⟩⟩
    · show ((nd.Fields.map _).map FieldMeta.Name) = nd.Fields.map FieldMeta.Name
      rw [List.map_map]
      apply List.map_congr_left
      intro f hf
      show (if _ then { f with hasCycle := true } else f).Name = f.Name
      split <;> rfl
    · show ((nd.Fields.map _).map FieldMeta.Typ) = nd.Fields.map FieldMeta.Typ
      rw [List.map_map]
      apply List.map_congr_left
      intro f hf
      show (if _ then { f with hasCycle := true } else f).Typ = f.Typ
      split <;> rfl
    · show ((nd.Fields.map _).map FieldMeta.JSONTag) = nd.Fields.map FieldMeta.JSONTag
      rw [List.map_map]
      apply List.map_congr_left
      intro f hf
      show (if _ then { f with hasCycle := true } else f).JSONTag = f.JSONTag
      split <;> rfl
    · show ((nd.Fields.map _).map FieldMeta.isNullable) = nd.Fields.map FieldMeta.isNullable
      rw [List.map_map]
      apply List.map_congr_left
      intro f hf
      show (if _ then { f with hasCycle := true } else f).isNullable = f.isNullable
      split <;> rfl

/-- Witness for **C4**: the diamond graph is well-formed and links. -/
theorem link_frame_witness :
    NodesWF diamondGraph ∧ (∃ g', diamondGraph.Link = some g') := by
  refine ⟨by decide, ?_⟩
  obtain ⟨g', hg', -⟩ := link_frame diamondGraph (by decide)
  exact ⟨g', hg'⟩

theorem childNodes_names (m : List (String × Node)) (hwf : MapWF m) (nd : Node) :
    ∀ c ∈ childNodes m nd, c.Name ∈ m.map Prod.fst := by
  intro c hc
  unfold childNodes at hc
  rcases List.mem_filterMap.mp hc with ⟨cn, hcn, hlk⟩
  have hmem := lookup_mem m cn c hlk
  have hname : c.Name = cn := hwf.2 (cn, c) hmem
  rw [hname]
  exact List.mem_map_of_mem Prod.fst hmem

theorem remaining_lt_of_subset (K : Finset String) (seen s : List String)
    (hsub : ∀ x ∈ seen, x ∈ s) :
    (K \ s.toFinset).card ≤ (K \ seen.toFinset).card := by
  apply Finset.card_le_card
  apply Finset.sdiff_subset_sdiff (le_refl K)
  intro x hx
  rw [List.mem_toFinset] at hx ⊢
  exact hsub x hx

theorem hasCycleLoop_some (m : List (String × Node)) (f : Nat)
    (IH : ∀ (n n1 : Node) (seen : List String),
      n.Name ∈ m.map Prod.fst → n1.Name ∈ m.map Prod.fst →
      ((m.map Prod.fst).toFinset \ seen.toFinset).card < f →
      ∃ b s, hasCycleWithF m f n n1 seen = some (b, s) ∧ ∀ x ∈ seen, x ∈ s) :
    ∀ (cs : List Node) (n1 : Node) (seen : List String),
      n1.Name ∈ m.map Prod.fst → (∀ c ∈ cs, c.Name ∈ m.map Prod.fst) →
      ((m.map Prod.fst).toFinset \ seen.toFinset).card < f →
      ∃ b s, hasCycleLoop (fun c s => hasCycleWithF m f n1 c s) cs seen = some (b, s) ∧
        ∀ x ∈ seen, x ∈ s := by
  intro cs
  induction cs with
  | nil =>
      intro n1 seen _ _ _
      exact ⟨false, seen, rfl, fun x h => h⟩
  | cons c rest ihc =>
      intro n1 seen hn1 hcs hcard
      obtain ⟨b1, s1, h1, hsub1⟩ :=
        IH n1 c seen hn1 (hcs c (List.mem_cons_self _ _)) hcard
      unfold hasCycleLoop
      rw [h1]
      cases b1 with
      | true => exact ⟨true, s1, rfl, hsub1⟩
      | false =>
          have hcard1 : ((m.map Prod.fst).toFinset \ s1.toFinset).card < f :=
            lt_of_le_of_lt (remaining_lt_of_subset _ seen s1 hsub1) hcard
          obtain ⟨b, s, h, hsub⟩ :=
            ihc n1 s1 hn1 (fun c' hc' => hcs c' (List.mem_cons_of_mem _ hc')) hcard1
          exact ⟨b, s, h, fun x hx => hsub x (hsub1 x hx)⟩

theorem hasCycleWithF_some (m : List (String × Node)) (hwf : MapWF m) :
    ∀ (fuel : Nat) (n n1 : Node) (seen : List String),
      n.Name ∈ m.map Prod.fst → n1.Name ∈ m.map Prod.fst →
      ((m.map Prod.fst).toFinset \ seen.toFinset).card < fuel →
      ∃ b s, hasCycleWithF m fuel n n1 seen = some (b, s) ∧ ∀ x ∈ seen, x ∈ s := by
  intro fuel
  induction fuel with
  | zero =>
      intro n n1 seen _ _ hcard
      exact absurd hcard (by omega)
  | succ f ih =>
      intro n n1 seen hn hn1 hcard
      unfold hasCycleWithF
      by_cases hseen : n.Name ∈ seen
      · rw [if_pos hseen]
        exact ⟨true, seen, rfl, fun x h => h⟩
      · rw [if_neg hseen]
        by_cases hkind : n1.Kind ≠ TypeKind.OBJECT ∧ n1.Kind ≠ TypeKind.INPUT_OBJECT
        · rw [if_pos hkind]
          exact ⟨false, seen, rfl, fun x h => h⟩
        · rw [if_neg hkind]
          have hin : n.Name ∈ (m.map Prod.fst).toFinset \ seen.toFinset := by
            rw [Finset.mem_sdiff, List.mem_toFinset, List.mem_toFinset]
            exact ⟨hn, hseen⟩
          have hstrict : ((m.map Prod.fst).toFinset \ (n.Name :: seen).toFinset).card
              < ((m.map Prod.fst).toFinset \ seen.toFinset).card := by
            apply Finset.card_lt_card
            rw [Finset.ssubset_iff_of_subset]
            · refine ⟨n.Name, hin, ?_⟩
              rw [Finset.mem_sdiff]
              rintro ⟨-, hc2⟩
              rw [List.mem_toFinset] at hc2
              exact hc2 (List.mem_cons_self _ _)
            · apply Finset.sdiff_subset_sdiff (le_refl _)
              intro x hx
              rw [List.mem_toFinset] at hx ⊢
              exact List.mem_cons_of_mem _ hx
          have hcard' : ((m.map Prod.fst).toFinset \ (n.Name :: seen).toFinset).card < f := by
            omega
          obtain ⟨b, s, h, hsub⟩ :=
            hasCycleLoop_some m f ih (childNodes m n1) n1 (n.Name :: seen) hn1
              (childNodes_names m hwf n1) hcard'
          refine ⟨b, s, h, fun x hx => hsub x (List.mem_cons_of_mem _ hx)⟩

/-- **C8**: the cycle search terminates on every finite well-formed
graph — self-loops and long cycles included — because each recursive
descent inserts a fresh graph name into `seen`, so the recursion depth
is bounded by the number of distinct node names: at fuel
`nodeFuel m` (one unit per map entry plus one) the search never runs
out.  `markCycles` and `Link` run the search at exactly this fuel. -/
theorem hasCycleWith_terminates (m : List (String × Node)) (hwf : MapWF m)
    (n n1 : Node) (hn : n.Name ∈ m.map Prod.fst) (hn1 : n1.Name ∈ m.map Prod.fst) :
    (hasCycleWithF m (nodeFuel m) n n1 []).isSome = true := by
  obtain ⟨b, s, h, -⟩ := hasCycleWithF_some m hwf (nodeFuel m) n n1 [] hn hn1 (by
    have h1 : (([] : List String)).toFinset = (∅ : Finset String) := rfl
    rw [h1, Finset.sdiff_empty]
    have h2 := (m.map Prod.fst).toFinset_card_le
    unfold nodeFuel
    have h3 : (m.map Prod.fst).length = m.length := List.length_map _ _
    omega)
  rw [h]
  rfl

/-- Witness for **C8**: the search terminates on a self-loop graph. -/
theorem hasCycleWith_terminates_witness :
    MapWF selfLoopGraph.hashMap ∧
    (hasCycleWithF selfLoopGraph.hashMap (nodeFuel selfLoopGraph.hashMap)
      (mkObjNode "A" [("a", "A", "a")]) (mkObjNode "A" [("a", "A", "a")]) []).isSome = true :=
  ⟨by decide,
    hasCycleWith_terminates selfLoopGraph.hashMap (by decide)
      (mkObjNode "A" [("a", "A", "a")]) (mkObjNode "A" [("a", "A", "a")])
      (by decide) (by decide)⟩

theorem collect_wf (g : Nodes) (nd : Node) (hwf : NodesWF g) :
    NodesWF (g.Collect nd) ∧
    (g.Collect nd).hashMap = g.hashMap ∨
    NodesWF (g.Collect nd) ∧
    (g.Collect nd).hashMap = g.hashMap ++ [(nd.Name, nd)] := by
  unfold Nodes.Collect
  by_cases h : (lookupNode g.hashMap nd.Name).isSome = true
  · left
    rw [if_pos h]
    exact ⟨hwf, rfl⟩
  · right
    rw [if_neg h]
    have hfresh : nd.Name ∉ g.hashMap.map Prod.fst :=
      fun hc => h ((lookupNode_isSome_iff _ _).mpr hc)
    refine ⟨⟨⟨?_, ?_⟩, ?_⟩, rfl⟩
    · simp only [List.map_append, List.map_cons, List.map_nil]
      rw [List.nodup_append]
      exact ⟨hwf.1.1, List.nodup_singleton _, by simpa using fun hc => hfresh hc⟩
    · intro p hp
      rcases List.mem_append.mp hp with hmem | hmem
      · exact hwf.1.2 p hmem
      · simp at hmem
        rw [hmem]
    · rw [hwf.2]
      simp
  
theorem collectSchemasFrom_inv :
    ∀ (ts : List GqlType) (g g' : Nodes),
      collectSchemasFrom g ts = some g' →
      NodesWF g → (∀ p ∈ g.hashMap, ∃ t, NewNode t = some p.2) →
      NodesWF g' ∧ ∀ p ∈ g'.hashMap, ∃ t, NewNode t = some p.2 := by
  intro ts
  induction ts with
  | nil =>
      intro g g' h hwf hbuilt
      simp [collectSchemasFrom] at h
      exact h ▸ ⟨hwf, hbuilt⟩
  | cons t rest ih =>
      intro g g' h hwf hbuilt
      unfold collectSchemasFrom at h
      cases hnn : NewNode t with
      | none => rw [hnn] at h; simp at h
      | some nd =>
          rw [hnn] at h
          rcases collect_wf g nd hwf with ⟨hwf', heq⟩ | ⟨hwf', heq⟩
          · exact ih (g.Collect nd) g' h hwf' (by rw [heq]; exact hbuilt)
          · refine ih (g.Collect nd) g' h hwf' ?_
            rw [heq]
            intro p hp
            rcases List.mem_append.mp hp with hmem | hmem
            · exact hbuilt p hmem
            · simp at hmem
              exact ⟨t, by rw [hmem]; exact hnn⟩

theorem NewNode_enum (t : GqlType) (nd : Node) (h : NewNode t = some nd)
    (hk : nd.Kind = TypeKind.ENUM) :
    nd.Children = [] ∧ ∀ f ∈ nd.Fields, f.Typ = nd.Name ∧ f.hasCycle = false := by
  obtain ⟨k, nm, ds, fs, ifs, itf, evs, pts⟩ := t
  cases k <;> simp only [NewNode] at h
  case OBJECT | INTERFACE | UNION =>
    cases hmm : mapMo fieldMetaOfField fs with
    | none => rw [hmm] at h; exact absurd h (by simp)
    | some ms =>
        rw [hmm] at h
        simp at h
        rw [← h] at hk
        simp at hk
  case INPUT_OBJECT =>
    cases hmm : mapMo fieldMetaOfInputField ifs with
    | none => rw [hmm] at h; exact absurd h (by simp)
    | some ms =>
        rw [hmm] at h
        simp at h
        rw [← h] at hk
        simp at hk
  case ENUM =>
    simp at h
    refine ⟨by rw [← h], ?_⟩
    intro f hf
    have hF : nd.Fields = evs.map (fieldMetaOfEnumValue nm) := by rw [← h]
    have hN : nd.Name = nm := by rw [← h]
    rw [hF] at hf
    rcases List.mem_map.mp hf with ⟨v, hv, rfl⟩
    exact ⟨by rw [hN]; rfl, rfl⟩
  case NULL | NON_NULL | SCALAR | LIST =>
    simp at h
    rw [← h] at hk
    simp at hk

theorem linkChildren_absorb (m : List (String × Node)) (name : String) :
    ∀ (fs : List FieldMeta), (∀ f ∈ fs, f.Typ = name) →
      ∀ seen, name ∈ seen → linkChildren m fs seen = [] := by
  intro fs
  induction fs with
  | nil => intro _ seen _; rfl
  | cons f rest ih =>
      intro hall seen hseen
      unfold linkChildren
      have hft : f.Typ = name := hall f (List.mem_cons_self _ _)
      have hrest : ∀ f' ∈ rest, f'.Typ = name := fun f' hf' => hall f' (List.mem_cons_of_mem _ hf')
      by_cases hlk : (lookupNode m f.Typ).isSome = true
      · rw [if_pos hlk, if_pos (hft ▸ hseen)]
        exact ih hrest seen hseen
      · rw [if_neg hlk]
        exact ih hrest seen hseen

theorem linkChildren_uniform (m : List (String × Node)) (name : String)
    (hsome : (lookupNode m name).isSome = true) :
    ∀ (fs : List FieldMeta), fs ≠ [] → (∀ f ∈ fs, f.Typ = name) →
      ∀ seen, name ∉ seen → linkChildren m fs seen = [name] := by
  intro fs
  cases fs with
  | nil => intro h; exact absurd rfl h
  | cons f rest =>
      intro _ hall seen hseen
      unfold linkChildren
      have hft : f.Typ = name := hall f (List.mem_cons_self _ _)
      rw [if_pos (by rw [hft]; exact hsome), if_neg (hft ▸ hseen)]
      rw [hft]
      congr 1
      exact linkChildren_absorb m name rest
        (fun f' hf' => hall f' (List.mem_cons_of_mem _ hf'))
        (name :: seen) (hft ▸ List.mem_cons_self _ _)

theorem hasCycleWith_kind_stop (m : List (String × Node)) (n n1 : Node)
    (h1 : n1.Kind ≠ TypeKind.OBJECT) (h2 : n1.Kind ≠ TypeKind.INPUT_OBJECT) :
    hasCycleWith m n n1 [] = false := by
  unfold hasCycleWith nodeFuel
  show (match hasCycleWithF m (m.length + 1) n n1 [] with
    | some (b, _) => b
    | none => false) = false
  unfold hasCycleWithF
  rw [if_neg (by simp : (n.Name : String) ∉ ([] : List String))]
  rw [if_pos ⟨h1, h2⟩]



/-- **C10**: in any graph built by `NewNode`+`Collect` and then
linked, every `ENUM` node with at least one enum value lists itself
among its children (the builder maps each enum-value field to the
enum's own type name, which `Link` resolves to the node itself, as a
deduplicated single entry), and none of its fields is ever flagged
`hasCycle` — the `ENUM`-kind child stops the cycle search at once. -/
theorem enum_nodes_self_child (ts : List GqlType) (g g' : Nodes) (name : String) (nd : Node)
    (hb : collectSchemas ts = some g) (hl : g.Link = some g')
    (hlk : lookupNode g'.hashMap name = some nd)
    (hk : nd.Kind = TypeKind.ENUM) (hne : nd.Fields ≠ []) :
    name ∈ nd.Children ∧ ∀ f ∈ nd.Fields, f.hasCycle = false := by
  obtain ⟨hwf, hbuilt⟩ := collectSchemasFrom_inv ts NewNodes g hb (by decide)
    (by intro p hp; simp [NewNodes] at hp)
  have hleq := Link_eq g hwf
  rw [hleq] at hl
  have hg' := (Option.some.inj hl).symm
  have hlk2 : lookupNode (g.hashMap.map (fun p =>
      (p.1, Node.markCycles (linkPhase1 g).hashMap (linkNode g.hashMap p.2)))) name
      = some nd := by
    rw [hg'] at hlk
    exact hlk
  have hlv := lookup_map_value g.hashMap
    (fun _ v => Node.markCycles (linkPhase1 g).hashMap (linkNode g.hashMap v)) name
  rw [hlv] at hlk2
  cases hlk0 : lookupNode g.hashMap name with
  | none => rw [hlk0] at hlk2; simp at hlk2
  | some nd0 =>
      rw [hlk0] at hlk2
      simp only [Option.map_some', Option.some.injEq] at hlk2
      have hnd : nd = Node.markCycles (linkPhase1 g).hashMap (linkNode g.hashMap nd0) :=
        hlk2.symm
      have hmem0 := lookup_mem _ _ _ hlk0
      have hname0 : nd0.Name = name := hwf.1.2 _ hmem0
      obtain ⟨t, ht⟩ := hbuilt (name, nd0) hmem0
      have hkind0 : nd0.Kind = TypeKind.ENUM := by
        rw [hnd] at hk
        exact hk
      obtain ⟨hch0, hfl0⟩ := NewNode_enum t nd0 ht hkind0
      have hne0 : nd0.Fields ≠ [] := by
        intro hc
        apply hne
        rw [hnd]
        show nd0.Fields.map _ = []
        rw [hc]
        rfl
      have hsome0 : (lookupNode g.hashMap name).isSome = true := by rw [hlk0]; rfl
      have hchildren : (linkNode g.hashMap nd0).Children = [name] := by
        show nd0.Children ++ linkChildren g.hashMap nd0.Fields [] = [name]
        rw [hch0, List.nil_append]
        exact linkChildren_uniform g.hashMap name hsome0 nd0.Fields hne0
          (fun f hf => (hfl0 f hf).1.trans hname0) [] (by simp)
      have hg1 : lookupNode (linkPhase1 g).hashMap name
          = some (linkNode g.hashMap nd0) := by
        show lookupNode (g.hashMap.map (fun p => (p.1, linkNode g.hashMap p.2))) name = _
        rw [lookup_map_value g.hashMap (fun _ v => linkNode g.hashMap v) name, hlk0]
        rfl
      have hcstop : hasCycleWith (linkPhase1 g).hashMap (linkNode g.hashMap nd0)
          (linkNode g.hashMap nd0) [] = false := by
        apply hasCycleWith_kind_stop
        · show nd0.Kind ≠ TypeKind.OBJECT
          rw [hkind0]
          intro hc
          exact absurd hc (by decide)
        · show nd0.Kind ≠ TypeKind.INPUT_OBJECT
          rw [hkind0]
          intro hc
          exact absurd hc (by decide)
      have hcond : ∀ f0 : FieldMeta, ((linkNode g.hashMap nd0).Children.any (fun cName =>
          match lookupNode (linkPhase1 g).hashMap cName with
          | some c => f0.Typ == c.Name && hasCycleWith (linkPhase1 g).hashMap
              (linkNode g.hashMap nd0) c []
          | none => false)) = false := by
        intro f0
        rw [hchildren]
        simp only [List.any_cons, List.any_nil, Bool.or_false]
        rw [hg1]
        show (f0.Typ == (linkNode g.hashMap nd0).Name &&
            hasCycleWith (linkPhase1 g).hashMap (linkNode g.hashMap nd0)
              (linkNode g.hashMap nd0) []) = false
        rw [hcstop]
        simp
      have hfields : nd.Fields = nd0.Fields := by
        rw [hnd]
        show nd0.Fields.map _ = nd0.Fields
        have hmapid : ∀ f0 ∈ nd0.Fields, (fun f =>
            if (linkNode g.hashMap nd0).Children.any (fun cName =>
                match lookupNode (linkPhase1 g).hashMap cName with
                | some c => f.Typ == c.Name && hasCycleWith (linkPhase1 g).hashMap
                    (linkNode g.hashMap nd0) c []
                | none => false) then
              { f with hasCycle := true }
            else f) f0 = f0 := by
          intro f0 hf0
          simp only [hcond f0]
          rfl
        rw [List.map_congr_left hmapid]
        simp
      constructor
      · rw [hnd]
        show name ∈ (linkNode g.hashMap nd0).Children
        rw [hchildren]
        exact List.mem_cons_self _ _
      · intro f hf
        rw [hfields] at hf
        exact (hfl0 f hf).2

/-- Witness for **C10**: a one-value enum builds, links, and ends up
with itself as sole child and no cycle flag. -/
theorem enum_nodes_self_child_witness :
    collectSchemas [enumExampleType] = some enumExampleGraph ∧
    enumExampleGraph.Link = some enumExampleLinked ∧
    lookupNode enumExampleLinked.hashMap "Country"
      = some { enumExampleNode with Children := ["Country"] } ∧
    ("Country" ∈ ({ enumExampleNode with Children := ["Country"] } : Node).Children ∧
      ∀ f ∈ ({ enumExampleNode with Children := ["Country"] } : Node).Fields,
        f.hasCycle = false) := by
  refine ⟨by decide, by decide, by decide, ?_⟩
  exact enum_nodes_self_child [enumExampleType] enumExampleGraph enumExampleLinked
    "Country" { enumExampleNode with Children := ["Country"] }
    (by decide) (by decide) (by decide) (by decide) (by decide)

end Introspect
